import Mathlib

/-!
Shallow embedding of the RustOS VGA text-display driver
(`src/vga_buffer.rs` and `src/main.rs`) and proofs about it.

The VGA buffer is modelled as a flat function from byte-pair offsets to
screen cells (the hardware region at 0xb8000 laid out row-major,
offset = row * BUFFER_WIDTH + col).  Machine bytes are modelled as `Nat`
with explicit `% 256` where u8 overflow could matter.
-/

namespace RustOS

set_option maxRecDepth 4000

/-- `BUFFER_HEIGHT` from vga_buffer.rs. -/
abbrev BUFFER_HEIGHT : Nat := 25

/-- `BUFFER_WIDTH` from vga_buffer.rs. -/
abbrev BUFFER_WIDTH : Nat := 80

/-- The `Color` enum from vga_buffer.rs with its sixteen variants. -/
inductive Color where
  | Black | Blue | Green | Cyan | Red | Magenta | Brown | LightGray
  | DarkGray | LightBlue | LightGreen | LightCyan | LightRed | Pink
  | Yellow | White
deriving DecidableEq, Repr

/-- The `repr(u8)` discriminant of each `Color` variant. -/
def Color.toNat : Color → Nat
  | .Black => 0
  | .Blue => 1
  | .Green => 2
  | .Cyan => 3
  | .Red => 4
  | .Magenta => 5
  | .Brown => 6
  | .LightGray => 7
  | .DarkGray => 8
  | .LightBlue => 9
  | .LightGreen => 10
  | .LightCyan => 11
  | .LightRed => 12
  | .Pink => 13
  | .Yellow => 14
  | .White => 15

/-- `ColorCode::new`: `(background as u8) << 4 | (foreground as u8)`,
computed in u8 arithmetic (the shift truncates to 8 bits). -/
def ColorCode.new (foreground background : Color) : Nat :=
  ((background.toNat <<< 4) % 256) ||| foreground.toNat

/-- `ColorCode::from_colors`, the public clone of `ColorCode::new`. -/
def ColorCode.fromColors (foreground background : Color) : Nat :=
  ((background.toNat <<< 4) % 256) ||| foreground.toNat

/-- `ScreenChar`: one VGA cell, a glyph byte plus an attribute byte. -/
structure ScreenChar where
  ascii_character : Nat
  color_code : Nat
deriving DecidableEq, Repr

/-- The VGA text buffer, as the flat row-major sequence of cells starting
at 0xb8000: index `row * BUFFER_WIDTH + col` holds the cell of `(row, col)`. -/
abbrev Buffer := Nat → ScreenChar

/-- Volatile read of cell `(r, c)`: `self.buffer.chars[r][c].read()`. -/
def readCell (buf : Buffer) (r c : Nat) : ScreenChar :=
  buf (r * BUFFER_WIDTH + c)

/-- Volatile store of one cell at a flat offset. -/
def writeOff (buf : Buffer) (o : Nat) (v : ScreenChar) : Buffer :=
  fun o' => if o' = o then v else buf o'

/-- The `Writer` struct: cursor column, active attribute, and the buffer it
owns.  The `&'static mut Buffer` at 0xb8000 is modelled by carrying the
buffer state in the structure. -/
structure Writer where
  column_position : Nat
  color_code : Nat
  buffer : Buffer

/-- `Writer::new`, parametrised by the initial contents of the hardware
region (the code takes whatever is at 0xb8000). -/
def Writer.new (buf : Buffer) : Writer :=
  { column_position := 0
    color_code := ColorCode.new Color.Yellow Color.Black
    buffer := buf }

/-- `Writer::set_color`. -/
def Writer.set_color (w : Writer) (foreground background : Color) : Writer :=
  { w with color_code := ColorCode.new foreground background }

/-- The inner `for col in 0..BUFFER_WIDTH` loop of `Writer::new_line`,
specialised to one `row`: for each `col` (ascending), read the cell at
`(row, col)` from the current buffer and write it at `(row - 1, col)`.
`copyCols buf row n` performs the iterations for `col < n`. -/
def copyCols (buf : Buffer) (row : Nat) : Nat → Buffer
  | 0 => buf
  | n + 1 =>
    writeOff (copyCols buf row n) ((row - 1) * BUFFER_WIDTH + n)
      (readCell (copyCols buf row n) row n)

/-- The outer `for row in 1..BUFFER_HEIGHT` loop of `Writer::new_line`:
`copyRows buf n` performs the iterations for `row` in `1..n+1` (ascending). -/
def copyRows (buf : Buffer) : Nat → Buffer
  | 0 => buf
  | n + 1 => copyCols (copyRows buf n) (n + 1) BUFFER_WIDTH

/-- The `for col in 0..BUFFER_WIDTH` loop of `Writer::clear_row`:
`clearCols buf row cc n` writes the blank cell (space glyph with attribute
`cc`) at `(row, col)` for `col < n`, ascending. -/
def clearCols (buf : Buffer) (row cc : Nat) : Nat → Buffer
  | 0 => buf
  | n + 1 => writeOff (clearCols buf row cc n) (row * BUFFER_WIDTH + n) ⟨32, cc⟩

/-- `Writer::clear_row`. -/
def Writer.clear_row (w : Writer) (row : Nat) : Writer :=
  { w with buffer := clearCols w.buffer row w.color_code BUFFER_WIDTH }

/-- `Writer::new_line`: scroll every row up by one (rows `1..BUFFER_HEIGHT`
copied to the row above, ascending, reading the evolving buffer exactly as
the source loop does), clear the last row, reset the cursor to column 0. -/
def Writer.new_line (w : Writer) : Writer :=
  let w1 := { w with buffer := copyRows w.buffer (BUFFER_HEIGHT - 1) }
  let w2 := w1.clear_row (BUFFER_HEIGHT - 1)
  { w2 with column_position := 0 }

/-- `Writer::write_byte`.  Byte 10 is `b'\n'`. -/
def Writer.write_byte (w : Writer) (byte : Nat) : Writer :=
  if byte = 10 then
    w.new_line
  else
    let w1 := if BUFFER_WIDTH ≤ w.column_position then w.new_line else w
    let row := BUFFER_HEIGHT - 1
    let col := w1.column_position
    { w1 with
      buffer := writeOff w1.buffer (row * BUFFER_WIDTH + col) ⟨byte, w1.color_code⟩
      column_position := w1.column_position + 1 }

/-- `Writer::write_string`, on the byte sequence of the input string:
bytes `0x20..=0x7e` and `b'\n'` are forwarded unchanged, every other byte
is forwarded as `0xfe`. -/
def Writer.write_string (w : Writer) (s : List Nat) : Writer :=
  s.foldl
    (fun w byte =>
      if (0x20 ≤ byte ∧ byte ≤ 0x7e) ∨ byte = 10 then w.write_byte byte
      else w.write_byte 0xfe)
    w

/-- The sanitization applied per byte by `Writer::write_string`'s `match`. -/
def sanitize_byte (byte : Nat) : Nat :=
  if (0x20 ≤ byte ∧ byte ≤ 0x7e) ∨ byte = 10 then byte else 0xfe

/-- Folding `Writer::write_byte` over a byte list (helper for stating
theorems about byte runs). -/
def writeBytes (w : Writer) (bs : List Nat) : Writer :=
  bs.foldl Writer.write_byte w

/-- `n`-fold iteration of a writer operation (models the source's
`for _ in 0..n` loops in `kernel_main`). -/
def iterOp : Nat → (Writer → Writer) → Writer → Writer
  | 0, _, w => w
  | n + 1, f, w => iterOp n f (f w)

/-- The byte sequence of `"Hello from Rust OS!"`. -/
def helloBytes : List Nat :=
  [72, 101, 108, 108, 111, 32, 102, 114, 111, 109, 32, 82, 117, 115, 116,
   32, 79, 83, 33]

/-- `kernel_main` from main.rs, as a transformation of the VGA buffer
contents: clear the screen with 25 newlines in black-on-black, switch to
yellow-on-black, 10 newlines, 35 spaces, the smiley byte 0x01, a newline,
35 spaces, then `"Hello from Rust OS!"`. -/
def kernel_main (buf : Buffer) : Buffer :=
  let w := Writer.new buf
  let w := w.set_color Color.Black Color.Black
  let w := iterOp BUFFER_HEIGHT (fun w => w.write_string [10]) w
  let w := w.set_color Color.Yellow Color.Black
  let w := iterOp 10 (fun w => w.write_string [10]) w
  let w := iterOp 35 (fun w => w.write_byte 32) w
  let w := w.write_byte 0x01
  let w := w.write_string [10]
  let w := iterOp 35 (fun w => w.write_byte 32) w
  let w := w.write_string helloBytes
  w.buffer

/-- The byte loop of `panic_write_string`: `cCol` is `current_col`.
Stops when the column reaches `BUFFER_WIDTH` or when the (sanitized) byte
is a line feed; otherwise volatile-stores the sanitized byte at flat offset
`row * BUFFER_WIDTH + current_col` and advances the column. -/
def panicLoop (buf : Buffer) (row cc : Nat) : Nat → List Nat → Buffer
  | _, [] => buf
  | cCol, byte :: rest =>
    if BUFFER_WIDTH ≤ cCol then buf
    else if sanitize_byte byte = 10 then buf
    else
      panicLoop
        (writeOff buf (row * BUFFER_WIDTH + cCol) ⟨sanitize_byte byte, cc⟩)
        row cc (cCol + 1) rest

/-- `panic_write_string` from vga_buffer.rs: bounds-guarded, lock-free
write of a byte sequence at `(row, col)` with attribute `cc`. -/
def panic_write_string (buf : Buffer) (s : List Nat) (row col cc : Nat) :
    Buffer :=
  if BUFFER_HEIGHT ≤ row ∨ BUFFER_WIDTH ≤ col then buf
  else panicLoop buf row cc col s

/-- UTF-8 encoding of one character (the byte sequence Rust's `str`
stores for it). -/
def utf8EncodeChar (c : Char) : List Nat :=
  let n := c.toNat
  if n < 0x80 then [n]
  else if n < 0x800 then [0xc0 + n / 64, 0x80 + n % 64]
  else if n < 0x10000 then
    [0xe0 + n / 4096, 0x80 + n / 64 % 64, 0x80 + n % 64]
  else
    [0xf0 + n / 262144, 0x80 + n / 4096 % 64, 0x80 + n / 64 % 64,
     0x80 + n % 64]

/-- `char::len_utf8`. -/
def lenUtf8 (c : Char) : Nat := (utf8EncodeChar c).length

/-- The UTF-8 byte sequence of a character list (what `str::bytes`
iterates and `str::len` counts). -/
def utf8Bytes (l : List Char) : List Nat := (l.map utf8EncodeChar).flatten

/-- The `for (byte_pos, ch) in file.char_indices()` loop of the panic
handler that computes `safe_byte_len`: `pos` is `byte_pos`, `cnt` is
`char_count`, `sbl` is the `safe_byte_len` accumulator. -/
def safeLoop : List Char → Nat → Nat → Nat → Nat
  | [], _, _, sbl => sbl
  | ch :: rest, pos, cnt, _ =>
    if 40 ≤ cnt then pos
    else safeLoop rest (pos + lenUtf8 ch) (cnt + 1) (pos + lenUtf8 ch)

/-- `safe_byte_len` as computed by the panic handler (`max_chars = 40`). -/
def safe_byte_len (file : List Char) : Nat := safeLoop file 0 0 0

/-- The `while num > 0 && idx > 0` digit loop of the panic handler:
writes `b'0' + num % 10` into `line_buf[idx]`, then continues with
`num / 10` and `idx - 1`; returns the final `idx` and buffer.  Recursion
is on `idx`, which strictly decreases on every iteration of the source
loop. -/
def digitsLoop (num : Nat) : Nat → List Nat → Nat × List Nat
  | 0, b => (0, b)
  | idx + 1, b =>
    if 0 < num then
      digitsLoop (num / 10) idx (b.set (idx + 1) (48 + num % 10))
    else (idx + 1, b)

/-- The digit-rendering block of the panic handler: a 5-byte buffer of
`b'0'`, the manual digit loop (or the explicit `num == 0` case), then the
slice `&line_buf[idx + 1..]`. -/
def lineDigits (line : Nat) : List Nat :=
  let b : List Nat := List.replicate 5 48
  if line = 0 then
    (b.set 4 48).drop (3 + 1)
  else
    let r := digitsLoop line 4 b
    r.2.drop (r.1 + 1)

/-- The byte sequence of `"PANIC!"`. -/
def panicBytes : List Nat := [80, 65, 78, 73, 67, 33]

/-- The byte sequence of `"Line: "`. -/
def lineLabelBytes : List Nat := [76, 105, 110, 101, 58, 32]

/-- The panic handler from main.rs, as a transformation of the VGA buffer
contents.  The `PanicInfo` is modelled as the optional source location
(file name as characters, line number); the handler writes `"PANIC!"` at
`(0,0)`, the UTF-8-safe 40-character truncation of the file name at
`(1,0)`, and — when the line number is below 10000 — `"Line: "` at
`(1,40)` and the decimal digits at `(1,46)`, all in red-on-black, then
spins forever (the spin is not part of the buffer transformation). -/
def panic_render (buf : Buffer) (loc : Option (List Char × Nat)) : Buffer :=
  let color_code := ColorCode.fromColors Color.Red Color.Black
  let buf1 := panic_write_string buf panicBytes 0 0 color_code
  match loc with
  | none => buf1
  | some (file, line) =>
    let sbl := safe_byte_len file
    let buf2 :=
      if 0 < sbl ∧ sbl ≤ (utf8Bytes file).length then
        panic_write_string buf1 ((utf8Bytes file).take sbl) 1 0 color_code
      else buf1
    if line < 10000 then
      let buf3 := panic_write_string buf2 lineLabelBytes 1 40 color_code
      panic_write_string buf3 (lineDigits line) 1 46 color_code
    else buf2

/-- A blank surface: every cell a space glyph in black-on-black. -/
def blankBuffer : Buffer := fun _ => ⟨32, 0⟩

/-- The public operations of the Synchronized Writer. -/
inductive Op where
  | setColor (foreground background : Color)
  | writeByte (b : Nat)
  | writeString (s : List Nat)

/-- Run one public operation. -/
def applyOp (w : Writer) : Op → Writer
  | .setColor f b => w.set_color f b
  | .writeByte b => w.write_byte b
  | .writeString s => w.write_string s

/-- Run a sequence of public operations. -/
def applyOps (w : Writer) (ops : List Op) : Writer := ops.foldl applyOp w

/-! ## Characterization of the scroll loops -/

theorem copyCols_apply (buf : Buffer) (row : Nat) (hrow : 1 ≤ row) :
    ∀ n o, copyCols buf row n o =
      if (row - 1) * 80 ≤ o ∧ o < (row - 1) * 80 + n then buf (o + 80)
      else buf o := by
  intro n
  induction n with
  | zero =>
    intro o
    rw [if_neg (by omega)]
    rfl
  | succ n ih =>
    intro o
    simp only [copyCols, writeOff, readCell, BUFFER_WIDTH]
    by_cases h : o = (row - 1) * 80 + n
    · rw [if_pos h, ih (row * 80 + n), if_neg (by omega), if_pos (by omega)]
      congr 1
      omega
    · rw [if_neg h, ih o]
      by_cases h2 : (row - 1) * 80 ≤ o ∧ o < (row - 1) * 80 + n
      · rw [if_pos h2, if_pos (by omega)]
      · rw [if_neg h2, if_neg (by omega)]

theorem copyRows_apply (buf : Buffer) :
    ∀ n o, copyRows buf n o =
      if o < n * 80 then buf (o + 80) else buf o := by
  intro n
  induction n with
  | zero =>
    intro o
    rw [if_neg (by omega)]
    rfl
  | succ n ih =>
    intro o
    show copyCols (copyRows buf n) (n + 1) BUFFER_WIDTH o = _
    rw [copyCols_apply _ _ (by omega) _ o]
    simp only [BUFFER_WIDTH]
    by_cases h : (n + 1 - 1) * 80 ≤ o ∧ o < (n + 1 - 1) * 80 + 80
    · rw [if_pos h, ih (o + 80), if_neg (by omega), if_pos (by omega)]
    · rw [if_neg h, ih o]
      by_cases h2 : o < n * 80
      · rw [if_pos h2, if_pos (by omega)]
      · rw [if_neg h2, if_neg (by omega)]

theorem clearCols_apply (buf : Buffer) (row cc : Nat) :
    ∀ n o, clearCols buf row cc n o =
      if row * 80 ≤ o ∧ o < row * 80 + n then (⟨32, cc⟩ : ScreenChar)
      else buf o := by
  intro n
  induction n with
  | zero =>
    intro o
    rw [if_neg (by omega)]
    rfl
  | succ n ih =>
    intro o
    simp only [clearCols, writeOff, BUFFER_WIDTH]
    by_cases h : o = row * 80 + n
    · rw [if_pos h, if_pos (by omega)]
    · rw [if_neg h, ih o]
      by_cases h2 : row * 80 ≤ o ∧ o < row * 80 + n
      · rw [if_pos h2, if_pos (by omega)]
      · rw [if_neg h2, if_neg (by omega)]

/-! ## Characterization of `Writer::new_line` -/

theorem new_line_column (w : Writer) : (w.new_line).column_position = 0 := rfl

theorem new_line_color (w : Writer) :
    (w.new_line).color_code = w.color_code := rfl

theorem new_line_buffer_apply (w : Writer) (o : Nat) :
    (w.new_line).buffer o =
      if 1920 ≤ o ∧ o < 2000 then (⟨32, w.color_code⟩ : ScreenChar)
      else if o < 1920 then w.buffer (o + 80)
      else w.buffer o := by
  show clearCols (copyRows w.buffer (BUFFER_HEIGHT - 1)) (BUFFER_HEIGHT - 1)
      w.color_code BUFFER_WIDTH o = _
  rw [clearCols_apply, copyRows_apply]
  simp only [BUFFER_HEIGHT, BUFFER_WIDTH]

theorem new_line_read (w : Writer) (r c : Nat) (hr : r < 25) (hc : c < 80) :
    readCell (w.new_line).buffer r c =
      if r = 24 then (⟨32, w.color_code⟩ : ScreenChar)
      else readCell w.buffer (r + 1) c := by
  show (w.new_line).buffer (r * BUFFER_WIDTH + c) = _
  rw [new_line_buffer_apply]
  simp only [BUFFER_WIDTH, readCell]
  by_cases h : r = 24
  · rw [if_pos (by omega), if_pos h]
  · rw [if_neg (by omega), if_pos (by omega), if_neg h]
    congr 1
    omega

/-! ## Characterization of `Writer::write_byte` and byte runs -/

theorem write_byte_newline (w : Writer) : w.write_byte 10 = w.new_line := rfl

theorem write_byte_printable_lt (w : Writer) (b : Nat) (hb : b ≠ 10)
    (hcol : w.column_position < 80) :
    w.write_byte b =
      { column_position := w.column_position + 1
        color_code := w.color_code
        buffer :=
          writeOff w.buffer (1920 + w.column_position)
            ⟨b, w.color_code⟩ } := by
  simp only [Writer.write_byte, BUFFER_WIDTH, BUFFER_HEIGHT]
  rw [if_neg hb, if_neg (by omega)]

theorem write_byte_printable_ge (w : Writer) (b : Nat) (hb : b ≠ 10)
    (hcol : 80 ≤ w.column_position) :
    w.write_byte b =
      { column_position := 1
        color_code := w.color_code
        buffer :=
          writeOff (w.new_line).buffer 1920 ⟨b, w.color_code⟩ } := by
  simp only [Writer.write_byte, BUFFER_WIDTH, BUFFER_HEIGHT]
  rw [if_neg hb, if_pos (by omega)]
  rw [show (w.new_line).column_position = 0 from rfl,
    show (w.new_line).color_code = w.color_code from rfl]

theorem write_byte_lt_column (w : Writer) (b : Nat) (hb : b ≠ 10)
    (hcol : w.column_position < 80) :
    (w.write_byte b).column_position = w.column_position + 1 := by
  rw [write_byte_printable_lt w b hb hcol]

theorem write_byte_lt_color (w : Writer) (b : Nat) (hb : b ≠ 10)
    (hcol : w.column_position < 80) :
    (w.write_byte b).color_code = w.color_code := by
  rw [write_byte_printable_lt w b hb hcol]

theorem writeBytes_nil (w : Writer) : writeBytes w [] = w := rfl

theorem writeBytes_cons (w : Writer) (b : Nat) (bs : List Nat) :
    writeBytes w (b :: bs) = writeBytes (w.write_byte b) bs := rfl

/-- Writing a run of printable bytes that fits on the remainder of the
bottom row: the cursor advances by the length of the run, the attribute is
unchanged, and the bytes land at consecutive bottom-row cells starting at
the old cursor; every other offset is untouched. -/
theorem writeBytes_run (bs : List Nat) :
    ∀ w : Writer, (∀ b ∈ bs, 32 ≤ b ∧ b ≤ 126) →
      w.column_position + bs.length ≤ 80 →
      (writeBytes w bs).column_position = w.column_position + bs.length ∧
      (writeBytes w bs).color_code = w.color_code ∧
      ∀ o, (writeBytes w bs).buffer o =
        if 1920 + w.column_position ≤ o ∧
            o < 1920 + w.column_position + bs.length then
          (⟨bs.getD (o - (1920 + w.column_position)) 0, w.color_code⟩ :
            ScreenChar)
        else w.buffer o := by
  induction bs with
  | nil =>
    intro w _ _
    refine ⟨by simp [writeBytes], rfl, ?_⟩
    intro o
    rw [if_neg (by simp only [List.length_nil]; omega)]
    rfl
  | cons b bs ih =>
    intro w hp hlen
    have hb : b ≠ 10 := by
      have := hp b (by simp)
      omega
    simp only [List.length_cons] at hlen
    have hcol : w.column_position < 80 := by omega
    rw [writeBytes_cons, write_byte_printable_lt w b hb hcol]
    obtain ⟨hc1, hc2, hbuf⟩ :=
      ih { column_position := w.column_position + 1
           color_code := w.color_code
           buffer := writeOff w.buffer (1920 + w.column_position)
             ⟨b, w.color_code⟩ }
        (fun x hx => hp x (by simp [hx]))
        (by simp; omega)
    refine ⟨by simp at hc1 ⊢; omega, hc2, ?_⟩
    intro o
    rw [hbuf o]
    simp only [writeOff]
    by_cases h1 : 1920 + (w.column_position + 1) ≤ o ∧
        o < 1920 + (w.column_position + 1) + bs.length
    · rw [if_pos h1, if_pos (by simp; omega)]
      have : o - (1920 + w.column_position) =
          (o - (1920 + (w.column_position + 1))) + 1 := by omega
      rw [this]
      simp
    · rw [if_neg h1]
      by_cases h2 : o = 1920 + w.column_position
      · rw [if_pos h2, if_pos (by simp; omega)]
        have : o - (1920 + w.column_position) = 0 := by omega
        rw [this]
        simp
      · rw [if_neg h2, if_neg (by simp; omega)]

/-! ## `Writer::write_string` as sanitize-then-forward -/

theorem write_string_eq_writeBytes (w : Writer) (s : List Nat) :
    w.write_string s = writeBytes w (s.map sanitize_byte) := by
  have hstep :
      (fun (w : Writer) (byte : Nat) =>
          if (0x20 ≤ byte ∧ byte ≤ 0x7e) ∨ byte = 10 then w.write_byte byte
          else w.write_byte 0xfe) =
        fun (w : Writer) (byte : Nat) => w.write_byte (sanitize_byte byte) := by
    funext w byte
    simp only [sanitize_byte]
    split <;> rfl
  show Writer.write_string w s = (s.map sanitize_byte).foldl Writer.write_byte w
  rw [Writer.write_string, hstep, List.foldl_map]

theorem write_string_newline (w : Writer) : w.write_string [10] = w.new_line := by
  show (if (0x20 ≤ 10 ∧ 10 ≤ 0x7e) ∨ 10 = 10 then w.write_byte 10
    else w.write_byte 0xfe) = w.new_line
  rw [if_pos (by omega)]
  rfl

/-! ## Iterated newlines and iterated byte writes -/

theorem iterNL_color (k : Nat) :
    ∀ w : Writer,
      (iterOp k (fun w => w.write_string [10]) w).color_code = w.color_code := by
  induction k with
  | zero => intro w; rfl
  | succ k ih =>
    intro w
    show (iterOp k _ (w.write_string [10])).color_code = _
    rw [write_string_newline, ih, new_line_color]

theorem iterNL_column (k : Nat) (hk : k ≠ 0) :
    ∀ w : Writer,
      (iterOp k (fun w => w.write_string [10]) w).column_position = 0 := by
  induction k with
  | zero => exact absurd rfl hk
  | succ k ih =>
    intro w
    show (iterOp k _ (w.write_string [10])).column_position = 0
    by_cases h : k = 0
    · subst h
      rw [write_string_newline]
      rfl
    · exact ih h _

theorem iterNL_read (k : Nat) :
    ∀ (w : Writer) (r c : Nat), r < 25 → c < 80 →
      readCell (iterOp k (fun w => w.write_string [10]) w).buffer r c =
        if 25 ≤ r + k then (⟨32, w.color_code⟩ : ScreenChar)
        else readCell w.buffer (r + k) c := by
  induction k with
  | zero =>
    intro w r c hr _
    rw [if_neg (by omega)]
    rfl
  | succ k ih =>
    intro w r c hr hc
    show readCell (iterOp k _ (w.write_string [10])).buffer r c = _
    rw [write_string_newline, ih (w.new_line) r c hr hc]
    by_cases h1 : 25 ≤ r + k
    · rw [if_pos h1, if_pos (by omega)]
      rfl
    · rw [if_neg h1, new_line_read _ _ _ (by omega) hc]
      by_cases h2 : r + k = 24
      · rw [if_pos h2, if_pos (by omega)]
      · rw [if_neg h2, if_neg (by omega)]
        congr 1

theorem iterOp_write_byte (b : Nat) :
    ∀ (n : Nat) (w : Writer),
      iterOp n (fun w => w.write_byte b) w = writeBytes w (List.replicate n b) := by
  intro n
  induction n with
  | zero => intro w; rfl
  | succ n ih =>
    intro w
    show iterOp n _ (w.write_byte b) = _
    rw [ih, List.replicate_succ, writeBytes_cons]

theorem getD_replicate_of_lt (n : Nat) (a : Nat) (i d : Nat) (h : i < n) :
    (List.replicate n a).getD i d = a := by
  rw [List.getD_eq_getElem?_getD, List.getElem?_replicate, if_pos h]
  rfl

/-! ## Stage-by-stage characterization of `kernel_main` -/

/-- Stage 1 of `kernel_main`: writer created, color black-on-black. -/
def km1 (buf : Buffer) : Writer :=
  (Writer.new buf).set_color Color.Black Color.Black

/-- Stage 2: screen cleared with `BUFFER_HEIGHT` newlines. -/
def km2 (buf : Buffer) : Writer :=
  iterOp BUFFER_HEIGHT (fun w => w.write_string [10]) (km1 buf)

/-- Stage 3: color switched to yellow-on-black. -/
def km3 (buf : Buffer) : Writer :=
  (km2 buf).set_color Color.Yellow Color.Black

/-- Stage 4: ten vertical-centering newlines. -/
def km4 (buf : Buffer) : Writer :=
  iterOp 10 (fun w => w.write_string [10]) (km3 buf)

/-- Stage 5: thirty-five centering spaces. -/
def km5 (buf : Buffer) : Writer :=
  iterOp 35 (fun w => w.write_byte 32) (km4 buf)

/-- Stage 6: the smiley byte 0x01. -/
def km6 (buf : Buffer) : Writer := (km5 buf).write_byte 0x01

/-- Stage 7: the newline after the smiley. -/
def km7 (buf : Buffer) : Writer := (km6 buf).write_string [10]

/-- Stage 8: thirty-five more centering spaces. -/
def km8 (buf : Buffer) : Writer :=
  iterOp 35 (fun w => w.write_byte 32) (km7 buf)

/-- Stage 9: the final text. -/
def km9 (buf : Buffer) : Writer := (km8 buf).write_string helloBytes

theorem kernel_main_eq_km9 (buf : Buffer) :
    kernel_main buf = (km9 buf).buffer := rfl

/-- The cell contents `kernel_main` leaves on screen: the smiley at
`(23, 35)`, `"Hello from Rust OS!"` on row 24 from column 35, every other
cell blank — yellow-on-black (attribute 14) on rows 14 and below (those
cleared after the color switch), black-on-black (attribute 0) above. -/
def kmExpected (r c : Nat) : ScreenChar :=
  if r = 23 ∧ c = 35 then ⟨1, 14⟩
  else if r = 24 ∧ 35 ≤ c ∧ c < 54 then ⟨helloBytes.getD (c - 35) 0, 14⟩
  else if 14 ≤ r then ⟨32, 14⟩
  else ⟨32, 0⟩

theorem km2_column (buf : Buffer) : (km2 buf).column_position = 0 :=
  iterNL_column 25 (by omega) (km1 buf)

theorem km2_read (buf : Buffer) (r c : Nat) (hr : r < 25) (hc : c < 80) :
    readCell (km2 buf).buffer r c = ⟨32, 0⟩ := by
  show readCell (iterOp 25 _ (km1 buf)).buffer r c = _
  rw [iterNL_read 25 (km1 buf) r c hr hc, if_pos (by omega)]
  rfl

theorem km4_column (buf : Buffer) : (km4 buf).column_position = 0 :=
  iterNL_column 10 (by omega) (km3 buf)

theorem km4_color (buf : Buffer) : (km4 buf).color_code = 14 := by
  show (iterOp 10 _ (km3 buf)).color_code = 14
  rw [iterNL_color 10 (km3 buf)]
  rfl

theorem km4_read (buf : Buffer) (r c : Nat) (hr : r < 25) (hc : c < 80) :
    readCell (km4 buf).buffer r c =
      if 15 ≤ r then (⟨32, 14⟩ : ScreenChar) else ⟨32, 0⟩ := by
  show readCell (iterOp 10 _ (km3 buf)).buffer r c = _
  rw [iterNL_read 10 (km3 buf) r c hr hc]
  by_cases h : 15 ≤ r
  · rw [if_pos (by omega), if_pos h]
    rfl
  · rw [if_neg (by omega), if_neg h]
    exact km2_read buf (r + 10) c (by omega) hc

theorem km5_eq (buf : Buffer) :
    km5 buf = writeBytes (km4 buf) (List.replicate 35 32) :=
  iterOp_write_byte 32 35 (km4 buf)

theorem km5_run (buf : Buffer) :
    (km5 buf).column_position = 35 ∧
    (km5 buf).color_code = 14 ∧
    ∀ r c, r < 25 → c < 80 →
      readCell (km5 buf).buffer r c =
        if 15 ≤ r then (⟨32, 14⟩ : ScreenChar) else ⟨32, 0⟩ := by
  obtain ⟨h1, h2, h3⟩ :=
    writeBytes_run (List.replicate 35 32) (km4 buf)
      (by intro b hb; rw [List.eq_of_mem_replicate hb]; omega)
      (by rw [km4_column, List.length_replicate]; omega)
  rw [← km5_eq] at h1 h2 h3
  refine ⟨by rw [h1, km4_column, List.length_replicate], by rw [h2, km4_color], ?_⟩
  intro r c hr hc
  show (km5 buf).buffer (r * BUFFER_WIDTH + c) = _
  rw [h3 (r * BUFFER_WIDTH + c), km4_column buf]
  by_cases h : 1920 + 0 ≤ r * BUFFER_WIDTH + c ∧
      r * BUFFER_WIDTH + c < 1920 + 0 + (List.replicate 35 (32 : Nat)).length
  · rw [if_pos h]
    rw [List.length_replicate] at h
    rw [getD_replicate_of_lt _ _ _ _ (by simp only [BUFFER_WIDTH] at h ⊢; omega)]
    rw [if_pos (by simp only [BUFFER_WIDTH] at h; omega), km4_color]
  · rw [if_neg h]
    exact km4_read buf r c hr hc

theorem km6_read (buf : Buffer) (r c : Nat) (hr : r < 25) (hc : c < 80) :
    readCell (km6 buf).buffer r c =
      if r = 24 ∧ c = 35 then (⟨1, 14⟩ : ScreenChar)
      else if 15 ≤ r then ⟨32, 14⟩ else ⟨32, 0⟩ := by
  obtain ⟨h1, h2, h3⟩ := km5_run buf
  show readCell ((km5 buf).write_byte 0x01).buffer r c = _
  rw [write_byte_printable_lt (km5 buf) 0x01 (by omega) (by rw [h1]; omega)]
  show writeOff (km5 buf).buffer (1920 + (km5 buf).column_position)
      ⟨0x01, (km5 buf).color_code⟩ (r * BUFFER_WIDTH + c) = _
  rw [h1, h2]
  simp only [writeOff, BUFFER_WIDTH]
  by_cases h : r * 80 + c = 1920 + 35
  · rw [if_pos h, if_pos (by omega)]
  · rw [if_neg h]
    have := h3 r c hr hc
    rw [if_neg (by omega)]
    exact this

theorem km7_column (buf : Buffer) : (km7 buf).column_position = 0 := by
  show ((km6 buf).write_string [10]).column_position = 0
  rw [write_string_newline]
  rfl

theorem km5_column_lt (buf : Buffer) : (km5 buf).column_position < 80 := by
  rw [(km5_run buf).1]
  omega

theorem km6_color (buf : Buffer) : (km6 buf).color_code = 14 :=
  (write_byte_lt_color (km5 buf) 0x01 (by omega) (km5_column_lt buf)).trans
    (km5_run buf).2.1

theorem km7_color (buf : Buffer) : (km7 buf).color_code = 14 :=
  (congrArg Writer.color_code (write_string_newline (km6 buf))).trans
    ((new_line_color (km6 buf)).trans (km6_color buf))

theorem km7_read (buf : Buffer) (r c : Nat) (hr : r < 25) (hc : c < 80) :
    readCell (km7 buf).buffer r c =
      if r = 23 ∧ c = 35 then (⟨1, 14⟩ : ScreenChar)
      else if 14 ≤ r then ⟨32, 14⟩ else ⟨32, 0⟩ := by
  show readCell ((km6 buf).write_string [10]).buffer r c = _
  rw [write_string_newline, new_line_read _ _ _ hr hc]
  have hcol6 : (km6 buf).color_code = 14 := km6_color buf
  by_cases h : r = 24
  · rw [if_pos h, hcol6, if_neg (by omega), if_pos (by omega)]
  · rw [if_neg h, km6_read buf (r + 1) c (by omega) hc]
    by_cases h1 : r = 23 ∧ c = 35
    · rw [if_pos (by omega), if_pos h1]
    · rw [if_neg (by omega), if_neg h1]
      by_cases h2 : 14 ≤ r
      · rw [if_pos (by omega), if_pos h2]
      · rw [if_neg (by omega), if_neg h2]

theorem km8_run (buf : Buffer) :
    (km8 buf).column_position = 35 ∧
    (km8 buf).color_code = 14 ∧
    ∀ r c, r < 25 → c < 80 →
      readCell (km8 buf).buffer r c =
        if r = 23 ∧ c = 35 then (⟨1, 14⟩ : ScreenChar)
        else if 14 ≤ r then ⟨32, 14⟩ else ⟨32, 0⟩ := by
  have heq : km8 buf = writeBytes (km7 buf) (List.replicate 35 32) :=
    iterOp_write_byte 32 35 (km7 buf)
  obtain ⟨h1, h2, h3⟩ :=
    writeBytes_run (List.replicate 35 32) (km7 buf)
      (by intro b hb; rw [List.eq_of_mem_replicate hb]; omega)
      (by rw [km7_column, List.length_replicate]; omega)
  rw [← heq] at h1 h2 h3
  refine ⟨by rw [h1, km7_column, List.length_replicate], by rw [h2, km7_color], ?_⟩
  intro r c hr hc
  show (km8 buf).buffer (r * BUFFER_WIDTH + c) = _
  rw [h3 (r * BUFFER_WIDTH + c), km7_column buf]
  by_cases h : 1920 + 0 ≤ r * BUFFER_WIDTH + c ∧
      r * BUFFER_WIDTH + c < 1920 + 0 + (List.replicate 35 (32 : Nat)).length
  · rw [if_pos h]
    rw [List.length_replicate] at h
    rw [getD_replicate_of_lt _ _ _ _ (by simp only [BUFFER_WIDTH] at h ⊢; omega)]
    rw [if_neg (by simp only [BUFFER_WIDTH] at h; omega),
      if_pos (by simp only [BUFFER_WIDTH] at h; omega), km7_color]
  · rw [if_neg h]
    exact km7_read buf r c hr hc

theorem km9_eq (buf : Buffer) :
    km9 buf = writeBytes (km8 buf) helloBytes := by
  show (km8 buf).write_string helloBytes = _
  rw [write_string_eq_writeBytes]
  congr 1

/-- Full pointwise characterization of the buffer `kernel_main` produces. -/
theorem kernel_main_read (buf : Buffer) (r c : Nat) (hr : r < 25)
    (hc : c < 80) :
    readCell (kernel_main buf) r c = kmExpected r c := by
  obtain ⟨h1, h2, h3⟩ := km8_run buf
  obtain ⟨g1, g2, g3⟩ :=
    writeBytes_run helloBytes (km8 buf) (by decide)
      (by rw [h1]; decide)
  rw [← km9_eq] at g1 g2 g3
  show readCell (km9 buf).buffer r c = _
  show (km9 buf).buffer (r * BUFFER_WIDTH + c) = _
  rw [g3 (r * BUFFER_WIDTH + c), h1]
  have hlen : helloBytes.length = 19 := rfl
  rw [hlen]
  simp only [kmExpected, BUFFER_WIDTH]
  by_cases h : 1955 ≤ r * 80 + c ∧ r * 80 + c < 1974
  · rw [if_pos (by omega), if_neg (by omega), if_pos (by omega)]
    have hidx : r * 80 + c - (1920 + 35) = c - 35 := by omega
    rw [hidx, h2]
  · rw [if_neg (by omega)]
    have hcell := h3 r c hr hc
    simp only [readCell, BUFFER_WIDTH] at hcell
    rw [hcell]
    by_cases hA : r = 23 ∧ c = 35
    · rw [if_pos hA, if_pos hA]
    · rw [if_neg hA, if_neg hA]
      have hC : ¬(r = 24 ∧ 35 ≤ c ∧ c < 54) := by omega
      rw [if_neg hC]

/-! ## Characterization of the lock-free fallback writer -/

theorem sanitize_printable (b : Nat) (h1 : 32 ≤ b) (h2 : b ≤ 126) :
    sanitize_byte b = b := by
  rw [sanitize_byte, if_pos (Or.inl ⟨h1, h2⟩)]

/-- Frame property of the `panic_write_string` loop: offsets before the
starting cell and at or past the end of the row are never touched. -/
theorem panicLoop_frame (row cc : Nat) :
    ∀ (s : List Nat) (buf : Buffer) (cCol o : Nat),
      o < row * 80 + cCol ∨ row * 80 + 80 ≤ o →
      panicLoop buf row cc cCol s o = buf o := by
  intro s
  induction s with
  | nil => intro buf cCol o _; rfl
  | cons b rest ih =>
    intro buf cCol o ho
    simp only [panicLoop, BUFFER_WIDTH]
    by_cases h1 : 80 ≤ cCol
    · rw [if_pos h1]
    · rw [if_neg h1]
      by_cases h2 : sanitize_byte b = 10
      · rw [if_pos h2]
      · rw [if_neg h2, ih _ (cCol + 1) o (by omega)]
        simp only [writeOff]
        rw [if_neg (by omega)]

/-- Content property of the `panic_write_string` loop on printable bytes
that fit in the row: byte `i` lands at column `cCol + i`. -/
theorem panicLoop_content (row cc : Nat) :
    ∀ (s : List Nat) (buf : Buffer) (cCol : Nat),
      (∀ b ∈ s, 32 ≤ b ∧ b ≤ 126) →
      cCol + s.length ≤ 80 →
      ∀ i, i < s.length →
        panicLoop buf row cc cCol s (row * 80 + cCol + i) =
          ⟨s.getD i 0, cc⟩ := by
  intro s
  induction s with
  | nil => intro buf cCol _ _ i hi; simp at hi
  | cons b rest ih =>
    intro buf cCol hp hlen i hi
    simp only [List.length_cons] at hlen hi
    have hb := hp b (by simp)
    have hcCol : cCol < 80 := by omega
    simp only [panicLoop, BUFFER_WIDTH]
    rw [if_neg (by omega), if_neg (by rw [sanitize_printable b hb.1 hb.2]; omega),
      sanitize_printable b hb.1 hb.2]
    match i with
    | 0 =>
      rw [panicLoop_frame row cc rest _ (cCol + 1) _ (by omega)]
      simp only [writeOff]
      rw [if_pos (by omega)]
      rfl
    | j + 1 =>
      have := ih (writeOff buf (row * 80 + cCol) ⟨b, cc⟩) (cCol + 1)
        (fun x hx => hp x (by simp [hx])) (by omega) j (by omega)
      rw [show row * 80 + cCol + (j + 1) = row * 80 + (cCol + 1) + j by omega,
        this]
      rfl

/-- A line-feed byte terminates the `panic_write_string` loop: everything
after the first line feed is ignored. -/
theorem panicLoop_lf (row cc : Nat) :
    ∀ (s1 s2 : List Nat) (buf : Buffer) (cCol : Nat),
      panicLoop buf row cc cCol (s1 ++ 10 :: s2) =
        panicLoop buf row cc cCol s1 := by
  intro s1
  induction s1 with
  | nil =>
    intro s2 buf cCol
    show panicLoop buf row cc cCol (10 :: s2) = buf
    simp only [panicLoop, BUFFER_WIDTH]
    by_cases h1 : 80 ≤ cCol
    · rw [if_pos h1]
    · rw [if_neg h1, if_pos (by decide)]
  | cons b rest ih =>
    intro s2 buf cCol
    simp only [List.cons_append, panicLoop, BUFFER_WIDTH]
    by_cases h1 : 80 ≤ cCol
    · rw [if_pos h1, if_pos h1]
    · rw [if_neg h1, if_neg h1]
      by_cases h2 : sanitize_byte b = 10
      · rw [if_pos h2, if_pos h2]
      · rw [if_neg h2, if_neg h2]
        exact ih s2 _ (cCol + 1)

theorem panic_write_string_oob (buf : Buffer) (s : List Nat)
    (row col cc : Nat) (h : 25 ≤ row ∨ 80 ≤ col) :
    panic_write_string buf s row col cc = buf := by
  simp only [panic_write_string, BUFFER_HEIGHT, BUFFER_WIDTH]
  rw [if_pos h]

theorem panic_write_string_in (buf : Buffer) (s : List Nat)
    (row col cc : Nat) (hrow : row < 25) (hcol : col < 80) :
    panic_write_string buf s row col cc = panicLoop buf row cc col s := by
  simp only [panic_write_string, BUFFER_HEIGHT, BUFFER_WIDTH]
  rw [if_neg (by omega)]

/-- Frame property of `panic_write_string` at the call level. -/
theorem panic_write_string_frame (buf : Buffer) (s : List Nat)
    (row col cc o : Nat) (ho : o < row * 80 + col ∨ row * 80 + 80 ≤ o) :
    panic_write_string buf s row col cc o = buf o := by
  by_cases h : 25 ≤ row ∨ 80 ≤ col
  · rw [panic_write_string_oob buf s row col cc h]
  · rw [panic_write_string_in buf s row col cc (by omega) (by omega)]
    exact panicLoop_frame row cc s buf col o ho

/-- Content property of `panic_write_string` at the call level. -/
theorem panic_write_string_content (buf : Buffer) (s : List Nat)
    (row col cc : Nat) (hrow : row < 25)
    (hp : ∀ b ∈ s, 32 ≤ b ∧ b ≤ 126) (hfit : col + s.length ≤ 80)
    (i : Nat) (hi : i < s.length) :
    panic_write_string buf s row col cc (row * 80 + col + i) =
      ⟨s.getD i 0, cc⟩ := by
  have hcol : col < 80 := by omega
  rw [panic_write_string_in buf s row col cc hrow hcol]
  exact panicLoop_content row cc s buf col hp hfit i hi

/-- Refined frame property: the loop touches at most `s.length` cells. -/
theorem panicLoop_frame_len (row cc : Nat) :
    ∀ (s : List Nat) (buf : Buffer) (cCol o : Nat),
      o < row * 80 + cCol ∨ row * 80 + cCol + s.length ≤ o →
      panicLoop buf row cc cCol s o = buf o := by
  intro s
  induction s with
  | nil => intro buf cCol o _; rfl
  | cons b rest ih =>
    intro buf cCol o ho
    simp only [List.length_cons] at ho
    simp only [panicLoop, BUFFER_WIDTH]
    by_cases h1 : 80 ≤ cCol
    · rw [if_pos h1]
    · rw [if_neg h1]
      by_cases h2 : sanitize_byte b = 10
      · rw [if_pos h2]
      · rw [if_neg h2, ih _ (cCol + 1) o (by omega)]
        simp only [writeOff]
        rw [if_neg (by omega)]

theorem sanitize_ne_10 (b : Nat) (hb : b ≠ 10) : sanitize_byte b ≠ 10 := by
  simp only [sanitize_byte]
  split_ifs with h
  · exact hb
  · omega

/-- Content property of the `panic_write_string` loop for arbitrary
non-line-feed bytes: as long as the column stays on the row, byte `i`
lands — sanitized — at column `cCol + i`.  No printability assumption:
bytes outside `0x20..0x7e` land as the placeholder 0xfe. -/
theorem panicLoop_content_lt (row cc : Nat) :
    ∀ (s : List Nat) (buf : Buffer) (cCol : Nat),
      (∀ b ∈ s, b ≠ 10) →
      ∀ i, i < s.length → cCol + i < 80 →
        panicLoop buf row cc cCol s (row * 80 + cCol + i) =
          ⟨sanitize_byte (s.getD i 0), cc⟩ := by
  intro s
  induction s with
  | nil => intro buf cCol _ i hi _; simp at hi
  | cons b rest ih =>
    intro buf cCol hnl i hi hcol
    simp only [List.length_cons] at hi
    have hb : b ≠ 10 := hnl b (by simp)
    simp only [panicLoop, BUFFER_WIDTH]
    rw [if_neg (by omega), if_neg (sanitize_ne_10 b hb)]
    match i with
    | 0 =>
      rw [panicLoop_frame row cc rest _ (cCol + 1) _ (by omega)]
      simp only [writeOff]
      rw [if_pos (by omega)]
      rfl
    | j + 1 =>
      have := ih (writeOff buf (row * 80 + cCol) ⟨sanitize_byte b, cc⟩)
        (cCol + 1) (fun x hx => hnl x (by simp [hx])) j (by omega) (by omega)
      rw [show row * 80 + cCol + (j + 1) = row * 80 + (cCol + 1) + j by omega,
        this]
      rfl

/-- Call-level version of `panicLoop_content_lt`. -/
theorem panic_write_string_content_lt (buf : Buffer) (s : List Nat)
    (row col cc : Nat) (hrow : row < 25)
    (hnl : ∀ b ∈ s, b ≠ 10) (i : Nat) (hi : i < s.length)
    (hcol : col + i < 80) :
    panic_write_string buf s row col cc (row * 80 + col + i) =
      ⟨sanitize_byte (s.getD i 0), cc⟩ := by
  rw [panic_write_string_in buf s row col cc hrow (by omega)]
  exact panicLoop_content_lt row cc s buf col hnl i hi hcol

/-! ## The UTF-8-safe truncation of the panic handler -/

theorem utf8Bytes_nil : utf8Bytes [] = [] := rfl

theorem utf8Bytes_cons (c : Char) (l : List Char) :
    utf8Bytes (c :: l) = utf8EncodeChar c ++ utf8Bytes l := by
  simp [utf8Bytes]

theorem utf8Bytes_append (l1 l2 : List Char) :
    utf8Bytes (l1 ++ l2) = utf8Bytes l1 ++ utf8Bytes l2 := by
  simp [utf8Bytes]

theorem lenUtf8_pos (c : Char) : 1 ≤ lenUtf8 c := by
  simp only [lenUtf8, utf8EncodeChar]
  split
  · simp
  · split
    · simp
    · split <;> simp

theorem utf8EncodeChar_ascii (c : Char) (h : c.toNat < 128) :
    utf8EncodeChar c = [c.toNat] := by
  simp only [utf8EncodeChar]
  rw [if_pos h]

theorem utf8Bytes_ascii :
    ∀ l : List Char, (∀ c ∈ l, c.toNat < 128) →
      utf8Bytes l = l.map Char.toNat := by
  intro l
  induction l with
  | nil => intro _; rfl
  | cons c rest ih =>
    intro h
    rw [utf8Bytes_cons, utf8EncodeChar_ascii c (h c (by simp)),
      ih (fun x hx => h x (by simp [hx])), List.map_cons]
    rfl

/-- Every byte the UTF-8 encoding emits for a character other than the
line feed differs from 10: continuation and lead bytes are at least 0x80,
and a single-byte encoding is the code point itself. -/
theorem utf8EncodeChar_ne_10 (c : Char) (hc : c.toNat ≠ 10) :
    ∀ b ∈ utf8EncodeChar c, b ≠ 10 := by
  intro b hb
  simp only [utf8EncodeChar] at hb
  split_ifs at hb with h1 h2 h3
  · simp at hb
    omega
  · simp at hb
    rcases hb with hb | hb <;> omega
  · simp at hb
    rcases hb with hb | hb | hb <;> omega
  · simp at hb
    rcases hb with hb | hb | hb | hb <;> omega

theorem mem_utf8Bytes (b : Nat) (l : List Char) (hb : b ∈ utf8Bytes l) :
    ∃ c ∈ l, b ∈ utf8EncodeChar c := by
  simp only [utf8Bytes, List.mem_flatten, List.mem_map] at hb
  obtain ⟨bs, ⟨c, hc, rfl⟩, hbbs⟩ := hb
  exact ⟨c, hc, hbbs⟩

/-- What the `char_indices` loop computes: starting with `char_count = cnt`
and `byte_pos = safe_byte_len = pos`, it returns `pos` plus the UTF-8 byte
length of the next `40 - cnt` characters. -/
theorem safeLoop_spec :
    ∀ (file : List Char) (pos cnt : Nat), cnt ≤ 40 →
      safeLoop file pos cnt pos =
        pos + (utf8Bytes (List.take (40 - cnt) file)).length := by
  intro file
  induction file with
  | nil =>
    intro pos cnt _
    simp [safeLoop, utf8Bytes]
  | cons c rest ih =>
    intro pos cnt hcnt
    simp only [safeLoop]
    by_cases h : 40 ≤ cnt
    · rw [if_pos h]
      have h40 : 40 - cnt = 0 := by omega
      rw [h40]
      simp [utf8Bytes]
    · rw [if_neg h, ih (pos + lenUtf8 c) (cnt + 1) (by omega)]
      have h40 : 40 - cnt = (40 - (cnt + 1)) + 1 := by omega
      rw [h40, List.take_succ_cons, utf8Bytes_cons, List.length_append]
      simp only [lenUtf8]
      omega

/-- `safe_byte_len` is exactly the byte length of the first (at most) 40
characters: the truncation point is always a character boundary and never
splits a multi-byte character. -/
theorem safe_byte_len_eq (file : List Char) :
    safe_byte_len file = (utf8Bytes (List.take 40 file)).length := by
  show safeLoop file 0 0 0 = _
  rw [safeLoop_spec file 0 0 (by omega), Nat.sub_zero]
  omega

theorem utf8Bytes_split (file : List Char) :
    utf8Bytes file =
      utf8Bytes (List.take 40 file) ++ utf8Bytes (List.drop 40 file) := by
  rw [← utf8Bytes_append, List.take_append_drop]

theorem safe_byte_len_le (file : List Char) :
    safe_byte_len file ≤ (utf8Bytes file).length := by
  rw [safe_byte_len_eq, utf8Bytes_split file, List.length_append]
  omega

theorem safe_byte_len_pos (file : List Char) (h : file ≠ []) :
    0 < safe_byte_len file := by
  rw [safe_byte_len_eq]
  match file, h with
  | c :: rest, _ =>
    rw [show (40 : Nat) = 39 + 1 from rfl, List.take_succ_cons,
      utf8Bytes_cons, List.length_append]
    have := lenUtf8_pos c
    simp only [lenUtf8] at this
    omega

/-- The bytes the panic handler slices out of the file name are exactly
the UTF-8 bytes of the first (at most) 40 characters. -/
theorem take_safe_byte_len (file : List Char) :
    (utf8Bytes file).take (safe_byte_len file) =
      utf8Bytes (List.take 40 file) := by
  rw [safe_byte_len_eq]
  conv_lhs => rw [utf8Bytes_split file]
  rw [List.take_left]

/-! ## The manual decimal-digit loop of the panic handler -/

theorem drop_set_self (l : List Nat) :
    ∀ (i v : Nat), i < l.length → (l.set i v).drop i = v :: l.drop (i + 1) := by
  induction l with
  | nil => intro i v h; simp at h
  | cons a t ih =>
    intro i v h
    match i with
    | 0 => simp
    | j + 1 =>
      simp only [List.set_cons_succ, List.drop_succ_cons]
      exact ih j v (by simp at h; omega)

theorem digitsLoop_zero (idx : Nat) (b : List Nat) :
    digitsLoop 0 idx b = (idx, b) := by
  match idx with
  | 0 => rfl
  | j + 1 => simp [digitsLoop]

/-- The standard decimal digit byte sequence of `n`: `"0"` for zero,
otherwise the base-10 digits of `n`, most significant first, as ASCII. -/
def decDigits (n : Nat) : List Nat :=
  if n = 0 then [48] else (Nat.digits 10 n).reverse.map (fun d => 48 + d)

/-- The digit loop drops the written digits into the tail of the buffer:
after the loop, the slice `&line_buf[idx' + 1..]` holds the decimal digits
of `num`, most significant first, followed by what was after `idx`. -/
theorem digitsLoop_spec :
    ∀ (idx num : Nat) (b : List Nat), 0 < num →
      (Nat.digits 10 num).length ≤ idx → idx < b.length →
      (digitsLoop num idx b).2.drop ((digitsLoop num idx b).1 + 1) =
        ((Nat.digits 10 num).reverse.map (fun d => 48 + d)) ++
          b.drop (idx + 1) := by
  intro idx
  induction idx with
  | zero =>
    intro num b hnum hlen _
    have : Nat.digits 10 num ≠ [] := Nat.digits_ne_nil_iff_ne_zero.mpr (by omega)
    have : Nat.digits 10 num = [] := List.length_eq_zero.mp (by omega)
    simp_all
  | succ idx ih =>
    intro num b hnum hlen hb
    have hd : Nat.digits 10 num = num % 10 :: Nat.digits 10 (num / 10) :=
      Nat.digits_def' (by norm_num) hnum
    simp only [digitsLoop, if_pos hnum]
    by_cases hten : num < 10
    · have hdiv : num / 10 = 0 := Nat.div_eq_of_lt hten
      rw [hdiv, digitsLoop_zero]
      simp only
      rw [drop_set_self b (idx + 1) _ hb, hd, hdiv]
      simp only [Nat.digits_zero, List.reverse_cons, List.reverse_nil,
        List.nil_append, List.map_cons, List.map_nil, List.cons_append,
        List.nil_append]
    · have hdivpos : 0 < num / 10 := by
        have := Nat.div_le_div_right (c := 10) (by omega : 10 ≤ num)
        simp at this
        omega
      have hlen2 : (Nat.digits 10 (num / 10)).length ≤ idx := by
        rw [hd] at hlen
        simp only [List.length_cons] at hlen
        omega
      rw [ih (num / 10) (b.set (idx + 1) (48 + num % 10)) hdivpos hlen2
        (by rw [List.length_set]; omega)]
      rw [hd]
      simp only [List.reverse_cons, List.map_append, List.map_cons,
        List.map_nil, List.append_assoc, List.nil_append]
      congr 1
      rw [drop_set_self b (idx + 1) _ hb]
      rfl

/-- Base-10 digit-count bound. -/
theorem digits10_len_le :
    ∀ (k n : Nat), n < 10 ^ k → (Nat.digits 10 n).length ≤ k := by
  intro k
  induction k with
  | zero =>
    intro n h
    have : n = 0 := by simpa using h
    simp [this]
  | succ k ih =>
    intro n h
    by_cases hn : n = 0
    · simp [hn]
    · rw [Nat.digits_def' (by norm_num) (by omega)]
      simp only [List.length_cons]
      have hdiv : n / 10 < 10 ^ k := by
        rw [Nat.pow_succ] at h
        omega
      have := ih (n / 10) hdiv
      omega

/-- The manual digit loop of the panic handler computes exactly the
standard decimal representation for every line number below 10000. -/
theorem lineDigits_eq (n : Nat) (h : n < 10000) :
    lineDigits n = decDigits n := by
  by_cases hz : n = 0
  · subst hz
    rfl
  · have hlen : (Nat.digits 10 n).length ≤ 4 :=
      digits10_len_le 4 n (by norm_num; omega)
    have hspec := digitsLoop_spec 4 n (List.replicate 5 48) (by omega) hlen
      (by simp)
    simp only [lineDigits, if_neg hz, decDigits, if_neg hz]
    rw [hspec]
    rw [show (4 : Nat) + 1 = (List.replicate 5 (48 : Nat)).length by simp,
      List.drop_length, List.append_nil]

theorem decDigits_mem (n : Nat) :
    ∀ b ∈ decDigits n, 48 ≤ b ∧ b ≤ 57 := by
  intro b hb
  simp only [decDigits] at hb
  by_cases hz : n = 0
  · rw [if_pos hz] at hb
    simp at hb
    omega
  · rw [if_neg hz] at hb
    simp only [List.mem_map, List.mem_reverse] at hb
    obtain ⟨d, hd, rfl⟩ := hb
    have := Nat.digits_lt_base (by norm_num) hd
    omega

theorem decDigits_len_le (n : Nat) (h : n < 10000) :
    (decDigits n).length ≤ 4 := by
  by_cases hz : n = 0
  · simp [decDigits, hz]
  · simp only [decDigits, if_neg hz, List.length_map, List.length_reverse]
    exact digits10_len_le 4 n (by norm_num; omega)

/-- A nonzero line number never renders with a leading zero. -/
theorem decDigits_no_leading_zero (n : Nat) (hn : n ≠ 0) :
    (decDigits n).head? ≠ some 48 := by
  have hne : Nat.digits 10 n ≠ [] := Nat.digits_ne_nil_iff_ne_zero.mpr hn
  simp only [decDigits, if_neg hn]
  rw [List.head?_map, List.head?_reverse, List.getLast?_eq_getLast _ hne]
  have hlast := Nat.getLast_digit_ne_zero 10 hn
  intro hcontra
  have h48 : 48 + (Nat.digits 10 n).getLast hne = 48 := by
    have := Option.map_eq_some'.mp hcontra
    obtain ⟨a, ha1, ha2⟩ := this
    have := Option.some.inj ha1
    omega
  omega

/-! ## Stage-by-stage characterization of the panic handler -/

/-- The `"PANIC!"` banner write of the panic handler. -/
def panicStage1 (buf : Buffer) : Buffer :=
  panic_write_string buf panicBytes 0 0
    (ColorCode.fromColors Color.Red Color.Black)

/-- The banner write followed by the guarded file-name write. -/
def panicStage2 (buf : Buffer) (file : List Char) : Buffer :=
  if 0 < safe_byte_len file ∧
      safe_byte_len file ≤ (utf8Bytes file).length then
    panic_write_string (panicStage1 buf)
      ((utf8Bytes file).take (safe_byte_len file)) 1 0
      (ColorCode.fromColors Color.Red Color.Black)
  else panicStage1 buf

theorem panic_render_none (buf : Buffer) :
    panic_render buf none = panicStage1 buf := rfl

theorem panic_render_some (buf : Buffer) (file : List Char) (line : Nat) :
    panic_render buf (some (file, line)) =
      if line < 10000 then
        panic_write_string
          (panic_write_string (panicStage2 buf file) lineLabelBytes 1 40
            (ColorCode.fromColors Color.Red Color.Black))
          (lineDigits line) 1 46
          (ColorCode.fromColors Color.Red Color.Black)
      else panicStage2 buf file := rfl

theorem panicCC_eq : ColorCode.fromColors Color.Red Color.Black = 4 := rfl

theorem panic_write_string_frame_len (buf : Buffer) (s : List Nat)
    (row col cc o : Nat)
    (ho : o < row * 80 + col ∨ row * 80 + col + s.length ≤ o) :
    panic_write_string buf s row col cc o = buf o := by
  by_cases h : 25 ≤ row ∨ 80 ≤ col
  · rw [panic_write_string_oob _ _ _ _ _ h]
  · rw [panic_write_string_in _ _ _ _ _ (by omega) (by omega)]
    exact panicLoop_frame_len row cc s buf col o ho

theorem panicStage1_cells (buf : Buffer) (j : Nat) (hj : j < 6) :
    panicStage1 buf j = ⟨panicBytes.getD j 0, 4⟩ := by
  have h := panic_write_string_content buf panicBytes 0 0
    (ColorCode.fromColors Color.Red Color.Black) (by omega) (by decide)
    (by decide) j hj
  rw [panicCC_eq] at h
  simpa using h

theorem panicStage1_frame (buf : Buffer) (o : Nat) (ho : 6 ≤ o) :
    panicStage1 buf o = buf o := by
  refine panic_write_string_frame_len buf panicBytes 0 0 _ o (Or.inr ?_)
  simp only [panicBytes, List.length_cons, List.length_nil]
  omega

theorem panicStage2_ascii (buf : Buffer) (file : List Char)
    (hascii : ∀ ch ∈ file, 32 ≤ ch.toNat ∧ ch.toNat ≤ 126)
    (hne : file ≠ []) :
    panicStage2 buf file =
      panic_write_string (panicStage1 buf)
        ((List.take 40 file).map Char.toNat) 1 0
        (ColorCode.fromColors Color.Red Color.Black) := by
  have h1 : 0 < safe_byte_len file := safe_byte_len_pos file hne
  have h2 := safe_byte_len_le file
  rw [panicStage2, if_pos ⟨h1, h2⟩, take_safe_byte_len,
    utf8Bytes_ascii (List.take 40 file)
      (fun c hc => by
        have := hascii c (List.mem_of_mem_take hc)
        omega)]

/-- For a nonempty file name the guard of the file-name write is always
taken, and the slice written is the UTF-8 byte sequence of the first (at
most) 40 characters — whole characters only. -/
theorem panicStage2_eq (buf : Buffer) (file : List Char) (hne : file ≠ []) :
    panicStage2 buf file =
      panic_write_string (panicStage1 buf)
        (utf8Bytes (List.take 40 file)) 1 0
        (ColorCode.fromColors Color.Red Color.Black) := by
  rw [panicStage2,
    if_pos ⟨safe_byte_len_pos file hne, safe_byte_len_le file⟩,
    take_safe_byte_len]

theorem panicStage2_frame_row0 (buf : Buffer) (file : List Char)
    (o : Nat) (ho : o < 80) : panicStage2 buf file o = panicStage1 buf o := by
  rw [panicStage2]
  by_cases h : 0 < safe_byte_len file ∧
      safe_byte_len file ≤ (utf8Bytes file).length
  · rw [if_pos h, panic_write_string_frame_len _ _ _ _ _ _ (by left; omega)]
  · rw [if_neg h]

theorem lineDigits_printable (line : Nat) (hline : line < 10000) :
    ∀ b ∈ lineDigits line, 32 ≤ b ∧ b ≤ 126 := by
  intro b hb
  rw [lineDigits_eq line hline] at hb
  have := decDigits_mem line b hb
  omega

theorem lineDigits_len_le (line : Nat) (hline : line < 10000) :
    (lineDigits line).length ≤ 4 := by
  rw [lineDigits_eq line hline]
  exact decDigits_len_le line hline

/-- Cells written on row 0 by the panic handler: the `"PANIC!"` banner. -/
theorem panic_render_banner (buf : Buffer) (file : List Char) (line : Nat)
    (j : Nat) (hj : j < 6) :
    panic_render buf (some (file, line)) j = ⟨panicBytes.getD j 0, 4⟩ := by
  rw [panic_render_some]
  have hstage2 : panicStage2 buf file j = ⟨panicBytes.getD j 0, 4⟩ := by
    rw [panicStage2_frame_row0 buf file j (by omega)]
    exact panicStage1_cells buf j hj
  by_cases h : line < 10000
  · rw [if_pos h,
      panic_write_string_frame_len _ _ _ _ _ _ (by left; omega),
      panic_write_string_frame_len _ _ _ _ _ _ (by left; omega)]
    exact hstage2
  · rw [if_neg h]
    exact hstage2

/-- Cells written on row 1 by the panic handler for an ASCII file name:
the truncated file name starting at column 0, glyph for glyph. -/
theorem panic_render_file_ascii (buf : Buffer) (file : List Char) (line : Nat)
    (hascii : ∀ ch ∈ file, 32 ≤ ch.toNat ∧ ch.toNat ≤ 126)
    (hne : file ≠ []) (i : Nat)
    (hi : i < ((List.take 40 file).map Char.toNat).length) :
    panic_render buf (some (file, line)) (80 + i) =
      ⟨((List.take 40 file).map Char.toNat).getD i 0, 4⟩ := by
  have hlen : ((List.take 40 file).map Char.toNat).length =
      min 40 file.length := by
    rw [List.length_map, List.length_take]
  have hi40 : i < 40 := by omega
  have hfile : panicStage2 buf file (80 + i) =
      ⟨((List.take 40 file).map Char.toNat).getD i 0, 4⟩ := by
    rw [panicStage2_ascii buf file hascii hne]
    have h := panic_write_string_content (panicStage1 buf)
      ((List.take 40 file).map Char.toNat) 1 0
      (ColorCode.fromColors Color.Red Color.Black) (by omega)
      (by
        intro b hb
        simp only [List.mem_map] at hb
        obtain ⟨ch, hch, rfl⟩ := hb
        exact hascii ch (List.mem_of_mem_take hch))
      (by omega) i hi
    rw [panicCC_eq] at h
    have : (1 : Nat) * 80 + 0 + i = 80 + i := by omega
    rw [this] at h
    exact h
  rw [panic_render_some]
  by_cases h : line < 10000
  · rw [if_pos h,
      panic_write_string_frame_len _ _ _ _ _ _ (by left; omega),
      panic_write_string_frame_len _ _ _ _ _ _ (by left; omega)]
    exact hfile
  · rw [if_neg h]
    exact hfile

/-- Cells written on row 1 by the panic handler for an arbitrary file
name containing no line feed: within the first 40 columns, column `i`
holds the `i`-th UTF-8 byte of the first (at most) 40 characters, passed
through the byte sanitization — so every byte of a multi-byte character
occupies its own cell (as the placeholder glyph 0xfe), and the truncation
never splits a character. -/
theorem panic_render_file_utf8 (buf : Buffer) (file : List Char)
    (line : Nat) (hnolf : ∀ ch ∈ file, ch.toNat ≠ 10) (hne : file ≠ [])
    (i : Nat) (hi : i < (utf8Bytes (List.take 40 file)).length)
    (hi40 : i < 40) :
    panic_render buf (some (file, line)) (80 + i) =
      ⟨sanitize_byte ((utf8Bytes (List.take 40 file)).getD i 0), 4⟩ := by
  have hnl : ∀ b ∈ utf8Bytes (List.take 40 file), b ≠ 10 := by
    intro b hb
    obtain ⟨c, hc, hbc⟩ := mem_utf8Bytes b _ hb
    exact utf8EncodeChar_ne_10 c (hnolf c (List.mem_of_mem_take hc)) b hbc
  have hfile : panicStage2 buf file (80 + i) =
      ⟨sanitize_byte ((utf8Bytes (List.take 40 file)).getD i 0), 4⟩ := by
    rw [panicStage2_eq buf file hne]
    have h := panic_write_string_content_lt (panicStage1 buf)
      (utf8Bytes (List.take 40 file)) 1 0
      (ColorCode.fromColors Color.Red Color.Black) (by omega) hnl i hi
      (by omega)
    rw [panicCC_eq] at h
    rw [show (1 : Nat) * 80 + 0 + i = 80 + i from by omega] at h
    exact h
  rw [panic_render_some]
  by_cases h : line < 10000
  · rw [if_pos h,
      panic_write_string_frame_len _ _ _ _ _ _ (by left; omega),
      panic_write_string_frame_len _ _ _ _ _ _ (by left; omega)]
    exact hfile
  · rw [if_neg h]
    exact hfile

/-- Cells written on row 1 from column 40 when the line number is small:
the literal label `"Line: "`. -/
theorem panic_render_label (buf : Buffer) (file : List Char) (line : Nat)
    (hline : line < 10000) (j : Nat) (hj : j < 6) :
    panic_render buf (some (file, line)) (120 + j) =
      ⟨lineLabelBytes.getD j 0, 4⟩ := by
  rw [panic_render_some, if_pos hline,
    panic_write_string_frame_len _ _ _ _ _ _ (by left; omega)]
  have h := panic_write_string_content (panicStage2 buf file)
    lineLabelBytes 1 40 (ColorCode.fromColors Color.Red Color.Black)
    (by omega) (by decide) (by decide) j hj
  rw [panicCC_eq] at h
  have : (1 : Nat) * 80 + 40 + j = 120 + j := by omega
  rw [this] at h
  exact h

/-- Cells written on row 1 from column 46 when the line number is small:
its decimal digits. -/
theorem panic_render_digits (buf : Buffer) (file : List Char) (line : Nat)
    (hline : line < 10000) (k : Nat) (hk : k < (lineDigits line).length) :
    panic_render buf (some (file, line)) (126 + k) =
      ⟨(lineDigits line).getD k 0, 4⟩ := by
  rw [panic_render_some, if_pos hline]
  have h := panic_write_string_content
    (panic_write_string (panicStage2 buf file) lineLabelBytes 1 40
      (ColorCode.fromColors Color.Red Color.Black))
    (lineDigits line) 1 46 (ColorCode.fromColors Color.Red Color.Black)
    (by omega) (lineDigits_printable line hline)
    (by have := lineDigits_len_le line hline; omega) k hk
  rw [panicCC_eq] at h
  have : (1 : Nat) * 80 + 46 + k = 126 + k := by omega
  rw [this] at h
  exact h

/-! ## Cursor invariant helpers -/

theorem write_byte_col_le (w : Writer) (b : Nat) :
    (w.write_byte b).column_position ≤ 80 := by
  by_cases h : b = 10
  · subst h
    rw [write_byte_newline, new_line_column]
    omega
  · by_cases h2 : 80 ≤ w.column_position
    · rw [write_byte_printable_ge w b h h2]
      exact (show (1 : Nat) ≤ 80 by omega)
    · rw [write_byte_printable_lt w b h (by omega)]
      exact (show w.column_position + 1 ≤ 80 by omega)

theorem write_string_col_le :
    ∀ (s : List Nat) (w : Writer), w.column_position ≤ 80 →
      (w.write_string s).column_position ≤ 80 := by
  intro s
  induction s with
  | nil => intro w hw; exact hw
  | cons b rest ih =>
    intro w hw
    show (List.foldl _ w (b :: rest)).column_position ≤ 80
    rw [List.foldl_cons]
    refine ih _ ?_
    by_cases h : (0x20 ≤ b ∧ b ≤ 0x7e) ∨ b = 10
    · show (if (0x20 ≤ b ∧ b ≤ 0x7e) ∨ b = 10 then w.write_byte b
        else w.write_byte 0xfe).column_position ≤ 80
      rw [if_pos h]
      exact write_byte_col_le w b
    · show (if (0x20 ≤ b ∧ b ≤ 0x7e) ∨ b = 10 then w.write_byte b
        else w.write_byte 0xfe).column_position ≤ 80
      rw [if_neg h]
      exact write_byte_col_le w 0xfe

theorem applyOp_col_le (w : Writer) (op : Op)
    (hw : w.column_position ≤ 80) :
    (applyOp w op).column_position ≤ 80 := by
  cases op with
  | setColor f b => exact hw
  | writeByte b => exact write_byte_col_le w b
  | writeString s => exact write_string_col_le s w hw

theorem applyOps_col_le :
    ∀ (ops : List Op) (w : Writer), w.column_position ≤ 80 →
      (applyOps w ops).column_position ≤ 80 := by
  intro ops
  induction ops with
  | nil => intro w hw; exact hw
  | cons op rest ih =>
    intro w hw
    show (List.foldl _ w (op :: rest)).column_position ≤ 80
    rw [List.foldl_cons]
    exact ih _ (applyOp_col_le w op hw)

theorem sanitize_idem (b : Nat) :
    sanitize_byte (sanitize_byte b) = sanitize_byte b := by
  simp only [sanitize_byte]
  split_ifs <;> omega

/-! ## The claims -/

/-- C1 counterexample: rendering the location `("m.rs", line 7)` on a
blank surface leaves the banner glyph `'P'` (80) — not the file name's
first glyph `'m'` (109) — at row 0, column 0; the file name's first glyph
is at row 1, column 0.  The claim as stated (file name on row 0) is false. -/
theorem C1_counterexample :
    panic_render blankBuffer (some (['m', '.', 'r', 's'], 7)) 0 =
      ⟨80, 4⟩ ∧
    (⟨80, 4⟩ : ScreenChar) ≠ ⟨109, 4⟩ ∧
    panic_render blankBuffer (some (['m', '.', 'r', 's'], 7)) 80 =
      ⟨109, 4⟩ := by
  refine ⟨by decide, by decide, by decide⟩

/-- C1 (amended): when the fault-reporting callback is invoked with a
source location (a nonempty file name with no line feed, any Unicode
characters), it renders the fixed `"PANIC!"` banner on row 0 and the file
name on row 1 starting at column 0, truncated to at most 40 characters at
a valid UTF-8 character boundary: `safe_byte_len` is exactly the byte
length of the first 40 characters, so no multi-byte character is ever
split, and within the first 40 columns each cell holds the corresponding
UTF-8 byte of the truncated name passed through the byte sanitization
(non-ASCII bytes become the placeholder 0xfe; for an all-ASCII name the
glyphs are the characters themselves).  Only when the line number is below
10000, the literal label `"Line: "` appears at row 1 column 40 followed by
the decimal line number at column 46; for a line number of 10000 or more
neither the label nor any digits are written.  (The halt loop that
follows is control flow outside the buffer transformation modelled
here.) -/
theorem C1_theorem (buf : Buffer) (file : List Char) (line : Nat)
    (hnolf : ∀ ch ∈ file, ch.toNat ≠ 10) (hne : file ≠ []) :
    safe_byte_len file = (utf8Bytes (List.take 40 file)).length ∧
    (∀ j, j < 6 →
      panic_render buf (some (file, line)) j = ⟨panicBytes.getD j 0, 4⟩) ∧
    (∀ i, i < (utf8Bytes (List.take 40 file)).length → i < 40 →
      panic_render buf (some (file, line)) (80 + i) =
        ⟨sanitize_byte ((utf8Bytes (List.take 40 file)).getD i 0), 4⟩) ∧
    ((∀ ch ∈ file, 32 ≤ ch.toNat ∧ ch.toNat ≤ 126) →
      ∀ i, i < ((List.take 40 file).map Char.toNat).length →
        panic_render buf (some (file, line)) (80 + i) =
          ⟨((List.take 40 file).map Char.toNat).getD i 0, 4⟩) ∧
    (line < 10000 →
      (∀ j, j < 6 →
        panic_render buf (some (file, line)) (120 + j) =
          ⟨lineLabelBytes.getD j 0, 4⟩) ∧
      (∀ k, k < (lineDigits line).length →
        panic_render buf (some (file, line)) (126 + k) =
          ⟨(lineDigits line).getD k 0, 4⟩) ∧
      lineDigits line = decDigits line) ∧
    (10000 ≤ line →
      panic_render buf (some (file, line)) = panicStage2 buf file) := by
  refine ⟨safe_byte_len_eq file,
    fun j hj => panic_render_banner buf file line j hj,
    fun i hi hi40 =>
      panic_render_file_utf8 buf file line hnolf hne i hi hi40,
    fun hascii i hi =>
      panic_render_file_ascii buf file line hascii hne i hi,
    fun hline => ⟨fun j hj => panic_render_label buf file line hline j hj,
      fun k hk => panic_render_digits buf file line hline k hk,
      lineDigits_eq line hline⟩,
    fun hge => ?_⟩
  rw [panic_render_some, if_neg (by omega)]

/-- C1 witness: for the location `("é.r", 7)` — whose first character
needs two UTF-8 bytes — the first byte of `'é'` lands at row 1, column 0,
rendered as the placeholder glyph 0xfe (254): whole multi-byte characters
are kept and each of their bytes occupies one cell. -/
theorem C1_witness :
    panic_render blankBuffer (some (['é', '.', 'r'], 7)) 80 =
      ⟨254, 4⟩ :=
  (C1_theorem blankBuffer ['é', '.', 'r'] 7 (by decide)
    (by decide)).2.2.1 0 (by decide) (by decide)

/-- C2 counterexample: after the entry callback runs on a blank surface,
the cell at row 24, column 0 is a blank with yellow-on-black attribute 14,
not the black-on-black attribute 0 the claim requires of "every other
cell". -/
theorem C2_counterexample :
    readCell (kernel_main blankBuffer) 24 0 = ⟨32, 14⟩ ∧
    (⟨32, 14⟩ : ScreenChar) ≠ ⟨32, 0⟩ := by
  constructor
  · rw [kernel_main_read blankBuffer 24 0 (by omega) (by omega)]
    rfl
  · decide

/-- C2 (amended): running the entry callback on a blank surface leaves the
smiley glyph 0x01 at row 23, column 35 and the literal text
`"Hello from Rust OS!"` on row 24 starting at column 35, both in the
yellow-on-black attribute; every other cell is blank, with yellow-on-black
attribute on rows 14-24 (the rows cleared after the color switch,
including the centering spaces) and black-on-black attribute on
rows 0-13. -/
theorem C2_theorem (r c : Nat) (hr : r < 25) (hc : c < 80) :
    readCell (kernel_main blankBuffer) r c =
      if r = 23 ∧ c = 35 then
        ⟨1, ColorCode.new Color.Yellow Color.Black⟩
      else if r = 24 ∧ 35 ≤ c ∧ c < 54 then
        ⟨helloBytes.getD (c - 35) 0, ColorCode.new Color.Yellow Color.Black⟩
      else if 14 ≤ r then ⟨32, ColorCode.new Color.Yellow Color.Black⟩
      else ⟨32, ColorCode.new Color.Black Color.Black⟩ := by
  rw [kernel_main_read blankBuffer r c hr hc]
  rfl

/-- C2 witness: the smiley glyph sits at row 23, column 35. -/
theorem C2_witness :
    readCell (kernel_main blankBuffer) 23 35 = ⟨1, 14⟩ :=
  (C2_theorem 23 35 (by omega) (by omega)).trans (by decide)

/-- C3: starting from cursor column 0, writing exactly `BUFFER_WIDTH`
printable bytes leaves the cursor at `BUFFER_WIDTH` and does not scroll
(every cell above the bottom row is unchanged); one further printable byte
performs exactly one scroll-and-reset and is then placed at column 0 of
the bottom row, leaving the cursor at 1. -/
theorem C3_theorem (w : Writer) (bs : List Nat)
    (hcol : w.column_position = 0) (hlen : bs.length = 80)
    (hp : ∀ b ∈ bs, 32 ≤ b ∧ b ≤ 126) :
    (writeBytes w bs).column_position = 80 ∧
    (∀ r c, r < 24 → c < 80 →
      readCell (writeBytes w bs).buffer r c = readCell w.buffer r c) ∧
    (∀ b2, 32 ≤ b2 → b2 ≤ 126 →
      (writeBytes w bs).write_byte b2 =
        { column_position := 1
          color_code := (writeBytes w bs).color_code
          buffer := writeOff ((writeBytes w bs).new_line).buffer 1920
            ⟨b2, (writeBytes w bs).color_code⟩ }) := by
  obtain ⟨h1, h2, h3⟩ := writeBytes_run bs w hp (by omega)
  refine ⟨by rw [h1, hcol, hlen], ?_, ?_⟩
  · intro r c hrr hcc
    show (writeBytes w bs).buffer (r * BUFFER_WIDTH + c) = _
    rw [h3]
    rw [if_neg (by simp only [BUFFER_WIDTH]; omega)]
    rfl
  · intro b2 hb2a hb2b
    exact write_byte_printable_ge (writeBytes w bs) b2 (by omega)
      (by rw [h1, hcol, hlen])

/-- C3 witness: eighty capital letters from column 0 leave the cursor at
column 80. -/
theorem C3_witness :
    (writeBytes (Writer.new blankBuffer)
      (List.replicate 80 65)).column_position = 80 :=
  (C3_theorem (Writer.new blankBuffer) (List.replicate 80 65) rfl
    (by decide) (by decide)).1

/-- C4: `write_string` processes its input byte-by-byte, forwarding every
byte through the sanitization `sanitize_byte` to `write_byte`: bytes in
`0x20..0x7e` and the line feed pass unchanged, every other byte becomes
the placeholder 0xfe, and no byte is skipped. -/
theorem C4_theorem (w : Writer) (s : List Nat) :
    w.write_string s = writeBytes w (s.map sanitize_byte) ∧
    (∀ b, ((0x20 ≤ b ∧ b ≤ 0x7e) ∨ b = 10) → sanitize_byte b = b) ∧
    (∀ b, ¬((0x20 ≤ b ∧ b ≤ 0x7e) ∨ b = 10) → sanitize_byte b = 0xfe) ∧
    (s.map sanitize_byte).length = s.length :=
  ⟨write_string_eq_writeBytes w s,
   fun b hb => by rw [sanitize_byte, if_pos hb],
   fun b hb => by rw [sanitize_byte, if_neg hb],
   List.length_map s sanitize_byte⟩

/-- C4 witness: the letter `'A'` passes unchanged and byte 7 becomes the
placeholder 0xfe. -/
theorem C4_witness :
    sanitize_byte 65 = 65 ∧ sanitize_byte 7 = 0xfe :=
  ⟨(C4_theorem (Writer.new blankBuffer) []).2.1 65 (by decide),
   (C4_theorem (Writer.new blankBuffer) []).2.2.1 7 (by decide)⟩

/-- C5: scroll-and-reset moves every row `r` in `[1, 24]` to row `r - 1`
(each row receives exactly the content previously at the row below, so the
sequential in-place loop never corrupts a not-yet-copied row), fills the
last row with blank cells carrying the currently active attribute, and
resets the cursor to column 0; row 0's old content is overwritten. -/
theorem C5_theorem (w : Writer) :
    (∀ r c, 1 ≤ r → r < 25 → c < 80 →
      readCell (w.new_line).buffer (r - 1) c = readCell w.buffer r c) ∧
    (∀ c, c < 80 →
      readCell (w.new_line).buffer 24 c = ⟨32, w.color_code⟩) ∧
    (w.new_line).column_position = 0 := by
  refine ⟨?_, ?_, new_line_column w⟩
  · intro r c h1 h2 hc
    rw [new_line_read w (r - 1) c (by omega) hc, if_neg (by omega)]
    congr 1
    omega
  · intro c hc
    rw [new_line_read w 24 c (by omega) hc, if_pos rfl]

/-- C5 witness: after one scroll on a fresh writer the bottom row is blank
in the active yellow-on-black attribute. -/
theorem C5_witness :
    readCell ((Writer.new blankBuffer).new_line).buffer 24 0 = ⟨32, 14⟩ :=
  (C5_theorem (Writer.new blankBuffer)).2.1 0 (by omega)

/-- C6: the byte sanitization of `write_string` is idempotent — feeding a
sanitized byte sequence back through sanitization returns it unchanged
(the placeholder 0xfe maps to itself). -/
theorem C6_theorem (s : List Nat) :
    (s.map sanitize_byte).map sanitize_byte = s.map sanitize_byte := by
  rw [List.map_map]
  exact List.map_congr_left (fun a _ => sanitize_idem a)

/-- C7: the fallback writer is a no-op whenever `row ≥ BUFFER_HEIGHT` or
`col ≥ BUFFER_WIDTH`: it returns the surface unchanged. -/
theorem C7_theorem (buf : Buffer) (s : List Nat) (row col cc : Nat)
    (h : BUFFER_HEIGHT ≤ row ∨ BUFFER_WIDTH ≤ col) :
    panic_write_string buf s row col cc = buf :=
  panic_write_string_oob buf s row col cc h

/-- C7 witness: a call at `row = BUFFER_HEIGHT` leaves a blank surface
unchanged. -/
theorem C7_witness :
    panic_write_string blankBuffer helloBytes 25 0 4 = blankBuffer :=
  C7_theorem blankBuffer helloBytes 25 0 4 (Or.inl (by decide))

/-- The byte sequence of `"Hello"`. -/
def helloFive : List Nat := [72, 101, 108, 108, 111]

/-- C8: `write_at("Hello", 1, 0, attr)` writes exactly the glyphs
`'H','e','l','l','o'` with the given attribute at cells `(1,0)…(1,4)`
(offsets 80…84) and changes no other cell; in general the fallback writer
touches only cells of the given row from the given column, never writes at
or past column `BUFFER_WIDTH`, and a line-feed byte terminates the call
before any further cell is written.  (It takes no writer state at all, so
cursor state is untouched by construction.) -/
theorem C8_theorem (buf : Buffer) (cc : Nat) :
    (∀ i, i < 5 →
      panic_write_string buf helloFive 1 0 cc (80 + i) =
        ⟨helloFive.getD i 0, cc⟩) ∧
    (∀ o, o < 80 ∨ 85 ≤ o →
      panic_write_string buf helloFive 1 0 cc o = buf o) ∧
    (∀ (s : List Nat) (row col cc2 o : Nat),
      o < row * 80 + col ∨ row * 80 + 80 ≤ o →
      panic_write_string buf s row col cc2 o = buf o) ∧
    (∀ (s1 s2 : List Nat) (row col cc2 : Nat),
      panic_write_string buf (s1 ++ 10 :: s2) row col cc2 =
        panic_write_string buf s1 row col cc2) := by
  refine ⟨?_, ?_, ?_, ?_⟩
  · intro i hi
    have h := panic_write_string_content buf helloFive 1 0 cc (by omega)
      (by decide) (by decide) i hi
    rw [show (1 : Nat) * 80 + 0 + i = 80 + i by omega] at h
    exact h
  · intro o ho
    refine panic_write_string_frame_len buf helloFive 1 0 cc o ?_
    simp only [helloFive, List.length_cons, List.length_nil]
    omega
  · intro s row col cc2 o ho
    exact panic_write_string_frame buf s row col cc2 o ho
  · intro s1 s2 row col cc2
    by_cases h : 25 ≤ row ∨ 80 ≤ col
    · rw [panic_write_string_oob _ _ _ _ _ h,
        panic_write_string_oob _ _ _ _ _ h]
    · rw [panic_write_string_in _ _ _ _ _ (by omega) (by omega),
        panic_write_string_in _ _ _ _ _ (by omega) (by omega)]
      exact panicLoop_lf row cc2 s1 s2 buf col

/-- C8 witness: the glyph `'H'` lands at `(1, 0)`. -/
theorem C8_witness :
    panic_write_string blankBuffer helloFive 1 0 4 80 = ⟨72, 4⟩ :=
  (C8_theorem blankBuffer 4).1 0 (by omega)

/-- C9: the cursor invariant `column_position ≤ BUFFER_WIDTH` holds for a
fresh writer and is preserved by every public operation (`set_color`,
`write_byte`, `write_string`); consequently no sequence of public
operations ever leaves the cursor past `BUFFER_WIDTH`. -/
theorem C9_theorem :
    (∀ buf : Buffer, (Writer.new buf).column_position ≤ 80) ∧
    (∀ (w : Writer) (op : Op), w.column_position ≤ 80 →
      (applyOp w op).column_position ≤ 80) ∧
    (∀ (buf : Buffer) (ops : List Op),
      (applyOps (Writer.new buf) ops).column_position ≤ 80) :=
  ⟨fun _ => (show (0 : Nat) ≤ 80 by omega),
   fun w op hw => applyOp_col_le w op hw,
   fun buf ops => applyOps_col_le ops (Writer.new buf)
     (show (0 : Nat) ≤ 80 by omega)⟩

/-- C9 witness: one `write_byte` from the initial state respects the
invariant. -/
theorem C9_witness :
    (applyOp (Writer.new blankBuffer)
      (Op.writeByte 65)).column_position ≤ 80 :=
  C9_theorem.2.1 (Writer.new blankBuffer) (Op.writeByte 65) (by decide)

/-- C10: for every line number below 10000 the manual modulo-and-divide
digit loop produces exactly the standard decimal representation (the
single digit `"0"` for zero, otherwise the base-10 digits most significant
first with no leading zero), and the panic handler writes it starting at
row 1, column 46. -/
theorem C10_theorem (n : Nat) (file : List Char) (buf : Buffer)
    (h : n < 10000) :
    lineDigits n = decDigits n ∧
    (n ≠ 0 → (lineDigits n).head? ≠ some 48) ∧
    (∀ k, k < (lineDigits n).length →
      panic_render buf (some (file, n)) (1 * 80 + 46 + k) =
        ⟨(lineDigits n).getD k 0, 4⟩) := by
  refine ⟨lineDigits_eq n h, ?_, ?_⟩
  · intro hn
    rw [lineDigits_eq n h]
    exact decDigits_no_leading_zero n hn
  · intro k hk
    rw [show (1 : Nat) * 80 + 46 + k = 126 + k by omega]
    exact panic_render_digits buf file n h k hk

/-- C10 witness: line 7 renders as the single digit `'7'` at row 1,
column 46. -/
theorem C10_witness :
    panic_render blankBuffer (some (['a'], 7)) (1 * 80 + 46 + 0) =
      ⟨55, 4⟩ :=
  (C10_theorem 7 ['a'] blankBuffer (by decide)).2.2 0 (by decide)

end RustOS
